import Mathlib

/-!
Verification of the session-registry / broadcast core of ssh-chat
(`src/server.go`), as a shallow embedding in Lean 4.

Conventions of the embedding:
* A `*Client` pointer is modelled by a client id (`Nat`); pointer equality
  becomes id equality.
* The mutable `Name` field of each client object lives in a heap
  `names : Nat → String`; the `Msg` channel of each client is the queue
  `outbox : Nat → List String` (a channel send appends).
* The Go map `clients map[string]*Client` is an association list
  `List (String × Nat)`; insertion overwrites the entry with the same key,
  matching Go map semantics.
* `time.Time` instants are `Int`; `ban.Before(now)` is strict `<`.
* After the strip step every name is ASCII, so Go byte-indexed length
  check and slice `name[:32]` coincide with character operations; names are
  handled at the level of `String.data` (lists of characters).
-/

namespace SshChat

/-- Constant `MAX_NAME_LENGTH` from server.go. -/
def MAX_NAME_LENGTH : Nat := 32

/-- Constant `HISTORY_LEN` from server.go. -/
def HISTORY_LEN : Nat := 20

/-- Membership in the character class `[0-9A-Za-z_]` of `RE_STRIP_NAME`
(decided on the Unicode code point, as Go regexp does per rune). -/
def isNameChar (c : Char) : Bool :=
  (48 ≤ c.toNat && c.toNat ≤ 57) ||     -- 0-9
  (65 ≤ c.toNat && c.toNat ≤ 90) ||     -- A-Z
  (97 ≤ c.toNat && c.toNat ≤ 122) ||    -- a-z
  c.toNat = 95                          -- _

/-- Stripping via `RE_STRIP_NAME.ReplaceAllString(name, "")`: delete every character
outside `[0-9A-Za-z_]`. -/
def stripName (s : String) : String :=
  ⟨s.data.filter isNameChar⟩

/-- Guest name `fmt.Sprintf("Guest%d", count)`. -/
def guestName (count : Nat) : String :=
  "Guest" ++ toString count

/-- The sanitisation stage of `Server.proposeName` (server.go lines
116-122): strip, then `if len > MAX_NAME_LENGTH { truncate } else if
len == 0 { Guest<count> }`. -/
def sanitizeName (count : Nat) (name : String) : String :=
  let n := stripName name
  if n.data.length > MAX_NAME_LENGTH then ⟨n.data.take MAX_NAME_LENGTH⟩
  else if n.data.length = 0 then guestName count
  else n

/-! ### Go map on strings, as an association list -/

/-- Lookup `m[k]` in a Go map. -/
def mapLookup (m : List (String × Nat)) (k : String) : Option Nat :=
  match m.find? (fun e => e.1 = k) with
  | none => none
  | some e => some e.2

/-- Deletion `delete(m, k)` in a Go map. -/
def mapDelete (m : List (String × Nat)) (k : String) : List (String × Nat) :=
  m.filter (fun e => ¬ (e.1 = k))

/-- Assignment `m[k] = v`: overwrites any existing entry with key `k`. -/
def mapInsert (m : List (String × Nat)) (k : String) (v : Nat) :
    List (String × Nat) :=
  (k, v) :: mapDelete m k

/-- The keys of the registry map: the display names stored in it. -/
def keysOf (m : List (String × Nat)) : List String := m.map Prod.fst

/-! ### History buffer

The `History` type (`NewHistory`, `History.Add`, `History.Get`) is not part
of `src/`; it is modelled from the spec. -/

/-- Modelled from the spec: `History.Add` on the missing History type — a
"fixed-capacity ordered log of the most recent broadcast messages,
overwritten oldest-first": append the message and keep the last
`HISTORY_LEN` entries. -/
def histAdd (h : List String) (msg : String) : List String :=
  let h2 := h ++ [msg]
  h2.drop (h2.length - HISTORY_LEN)

/-- Modelled from the spec: `History.Get(n)` on the missing History type —
"up to `n` most recent history lines", most recent last. -/
def histGet (h : List String) (n : Nat) : List String :=
  h.drop (h.length - n)

/-! ### Ban table -/

/-- The `banned map[string]*time.Time` table: fingerprint to optional
expiry instant (`none` inner value = permanent ban). -/
abbrev BanTable : Type := List (String × Option Int)

def banLookup (m : BanTable) (k : String) : Option (Option Int) :=
  match m.find? (fun e => e.1 = k) with
  | none => none
  | some e => some e.2

def banDelete (m : BanTable) (k : String) : BanTable :=
  m.filter (fun e => ¬ (e.1 = k))

def banInsert (m : BanTable) (k : String) (v : Option Int) : BanTable :=
  (k, v) :: banDelete m k

/-- Function `Server.IsBanned` (server.go lines 182-195), with the ambient
`time.Now()` passed as `now`. Returns the boolean result together with the
ban table after the lazy cleanup (`s.Unban(fingerprint)` on a past
expiry). -/
def IsBanned (m : BanTable) (fp : String) (now : Int) : Bool × BanTable :=
  match banLookup m fp with
  | none => (false, m)
  | some none => (true, m)
  | some (some t) => if t < now then (false, banDelete m fp) else (true, m)

/-- Function `Server.Ban` (server.go lines 197-206): optional duration; a given
duration stores expiry `now + duration`, an omitted one a permanent ban. -/
def Ban (m : BanTable) (fp : String) (duration : Option Int) (now : Int) :
    BanTable :=
  banInsert m fp (duration.map (fun d => now + d))

/-- Function `Server.Unban` (server.go lines 208-212). -/
def Unban (m : BanTable) (fp : String) : BanTable :=
  banDelete m fp

/-! ### Server state and registry operations -/

/-- The state touched by the registry/broadcast core: the `Server` fields
`clients`, `count`, `history`, `banned`, together with the heap of client
objects (`names` = each client `Name` field, `outbox` = each client
`Msg` channel) and the allocation counter `nextCid` standing for fresh
`*Client` pointers handed out by the transport layer. -/
structure ServerState where
  clients : List (String × Nat)
  names : Nat → String
  outbox : Nat → List String
  count : Nat
  history : List String
  banned : BanTable
  nextCid : Nat

/-- Channel send `client.Msg <- msg`: append to the outbound queue of the client. -/
def sendMsg (ob : Nat → List String) (cid : Nat) (msg : String) :
    Nat → List String :=
  fun j => if j = cid then ob j ++ [msg] else ob j

/-- Modelled from the spec: `Client.Rename` on the missing Client type —
"update the participant stored name". -/
def clientRename (s : ServerState) (cid : Nat) (n : String) : ServerState :=
  { s with names := fun j => if j = cid then n else s.names j }

/-- The delivery loop of `Server.Broadcast`: `for _, client := range
s.clients { if except != nil && client == except { continue };
client.Msg <- msg }`. -/
def deliverAll (ob : Nat → List String) (entries : List (String × Nat))
    (msg : String) (except : Option Nat) : Nat → List String :=
  match entries with
  | [] => ob
  | e :: rest =>
      let ob2 := if except = some e.2 then ob else sendMsg ob e.2 msg
      deliverAll ob2 rest msg except

/-- Function `Server.Broadcast` (server.go lines 71-81). -/
def Broadcast (s : ServerState) (msg : String) (except : Option Nat) :
    ServerState :=
  { s with
    history := histAdd s.history msg
    outbox := deliverAll s.outbox s.clients msg except }

/-- Function `Server.proposeName` (server.go lines 113-131). Returns the assigned
name and, on collision, the error text `"%s is not available."` built from
the desired (sanitised) name. -/
def proposeName (s : ServerState) (name : String) : String × Option String :=
  let n := sanitizeName s.count name
  if (mapLookup s.clients n).isSome then
    (guestName s.count, some (n ++ " is not available."))
  else
    (n, none)

/-- The collision notice of `Server.Add` (server.go line 94). -/
def addNotice (oldName newName : String) : String :=
  "-> Your name \x27" ++ oldName ++ "\x27 is not available, renamed to \x27"
    ++ newName ++ "\x27. Use /nick <name> to change it."

/-- The join announcement of `Server.Add` (server.go line 102). -/
def joinMsg (name : String) (num : Nat) : String :=
  "* " ++ name ++ " joined. (Total connected: " ++ toString num ++ ")"

/-- Function `Server.Add` (server.go lines 83-103). The initial goroutine writes
the welcome text and history replay directly to the terminal
(`client.WriteLines` / `client.Write`), not to the `Msg` channel, and is
not part of the registry state. Lock acquisition/release frame the
sequential steps. -/
def Add (s : ServerState) (cid : Nat) : ServerState :=
  let s1 := { s with count := s.count + 1 }
  -- `client.Name` is still the provisional name here, untouched by the
  -- counter increment:
  let p := proposeName s1 (s.names cid)
  let s2 :=
    match p.2 with
    | some _ =>
        { s1 with outbox := sendMsg s1.outbox cid (addNotice (s.names cid) p.1) }
    | none => s1
  -- `client.Rename(newName)` then `s.clients[client.Name] = client`:
  -- after the rename, `client.Name` is exactly the proposed name `p.1`,
  -- which is therefore the key of the insertion and the name in the join
  -- announcement.
  let s3 := clientRename s2 cid p.1
  let s4 := { s3 with clients := mapInsert s3.clients p.1 cid }
  Broadcast s4 (joinMsg p.1 s4.clients.length) (some cid)

/-- Function `Server.Remove` (server.go lines 105-111). -/
def Remove (s : ServerState) (cid : Nat) : ServerState :=
  let s1 := { s with clients := mapDelete s.clients (s.names cid) }
  Broadcast s1 ("* " ++ s1.names cid ++ " left.") none

/-- The renamed announcement of `Server.Rename` (server.go line 150). -/
def renameMsg (oldName newName : String) : String :=
  "* " ++ oldName ++ " is now known as " ++ newName ++ "."

/-- Function `Server.Rename` (server.go lines 133-151). -/
def Rename (s : ServerState) (cid : Nat) (newName : String) : ServerState :=
  let p := proposeName s newName
  match p.2 with
  | some e => { s with outbox := sendMsg s.outbox cid ("-> " ++ e) }
  | none =>
      -- `delete(s.clients, client.Name)`, `oldName := client.Name` (the
      -- name before the rename), `client.Rename(newName)`,
      -- `s.clients[client.Name] = client` with `client.Name = p.1` now.
      let s1 := { s with clients := mapDelete s.clients (s.names cid) }
      let oldName := s.names cid
      let s2 := clientRename s1 cid p.1
      let s3 := { s2 with clients := mapInsert s2.clients p.1 cid }
      Broadcast s3 (renameMsg oldName p.1) none

/-! ### Operation sequences

The transport layer constructs each client with a provisional name and a
fresh identity, calls `Add` once on it, and thereafter `Rename`/`Remove`
are invoked on clients it was handed. An operation sequence models that
lifecycle: `add` allocates a fresh client id, `remove`/`rename` refer to a
previously allocated one. -/

inductive Op where
  | add (provisional : String)
  | remove (cid : Nat)
  | rename (cid : Nat) (requested : String)

/-- One operation against the server. `add` sets the fresh client
provisional name (`NewClient`) and calls `Server.Add`. -/
def applyOp (s : ServerState) : Op → ServerState
  | .add prov =>
      let cid := s.nextCid
      let s1 := { s with
        nextCid := s.nextCid + 1
        names := fun j => if j = cid then prov else s.names j }
      Add s1 cid
  | .remove cid => Remove s cid
  | .rename cid n => Rename s cid n

def runOps (s : ServerState) (ops : List Op) : ServerState :=
  ops.foldl applyOp s

/-- Number of client ids allocated after an operation, starting from `k`:
only `add` allocates. -/
def opAlloc (k : Nat) : Op → Nat
  | Op.add _ => k + 1
  | Op.remove _ => k
  | Op.rename _ _ => k

/-- An operation is well formed when it only mentions client ids already
handed out by the transport (`k` ids allocated so far). -/
def opOk (k : Nat) : Op → Bool
  | Op.add _ => true
  | Op.remove cid => decide (cid < k)
  | Op.rename cid _ => decide (cid < k)

/-- Well-formed operation sequences: every operation refers only to
previously allocated client ids. -/
def wfOps (k : Nat) : List Op → Bool
  | [] => true
  | op :: rest => opOk k op && wfOps (opAlloc k op) rest

/-- The server state produced by `NewServer` (empty registry, zero
counter, empty history and ban table), with an empty client heap. -/
def initState : ServerState where
  clients := []
  names := fun _ => ""
  outbox := fun _ => []
  count := 0
  history := []
  banned := []
  nextCid := 0

/-- The name `Server.Add` assigns to the client: the result of
`proposeName` after the counter increment, on the client provisional
name. -/
def addName (s : ServerState) (cid : Nat) : String :=
  (proposeName { s with count := s.count + 1 } (s.names cid)).1

/-- The claim reading of the naming pipeline, applied sequentially:
strip, then truncate to at most `MAX_NAME_LENGTH` characters if longer,
then substitute `Guest<count>` if the result is empty. -/
def specNamePipeline (count : Nat) (name : String) : String :=
  let s1 := stripName name
  let s2 :=
    if s1.data.length > MAX_NAME_LENGTH then (⟨s1.data.take MAX_NAME_LENGTH⟩ : String)
    else s1
  if s2.data.length = 0 then guestName count else s2

/-- A sequence of `Server.Broadcast` calls with no excluded client. -/
def runBroadcasts (s : ServerState) (msgs : List String) : ServerState :=
  msgs.foldl (fun t m => Broadcast t m none) s

/-- Invariant of reachable server states: the registry keys are
pairwise distinct, every stored client `Name` field equals the key it is
stored under, and every stored client id was allocated. -/
structure Inv (s : ServerState) : Prop where
  keysNodup : (keysOf s.clients).Nodup
  consistent : ∀ e ∈ s.clients, s.names e.2 = e.1
  bounded : ∀ e ∈ s.clients, e.2 < s.nextCid

/-! ### Lemmas about the Go-map model -/

theorem mem_mapDelete {m : List (String × Nat)} {k : String}
    {e : String × Nat} : e ∈ mapDelete m k ↔ e ∈ m ∧ e.1 ≠ k := by
  simp [mapDelete]

theorem mem_mapInsert {m : List (String × Nat)} {k : String} {v : Nat}
    {e : String × Nat} :
    e ∈ mapInsert m k v ↔ e = (k, v) ∨ (e ∈ m ∧ e.1 ≠ k) := by
  simp [mapInsert, mem_mapDelete]

theorem not_mem_keysOf_mapDelete (m : List (String × Nat)) (k : String) :
    k ∉ keysOf (mapDelete m k) := by
  intro h
  rcases List.mem_map.mp h with ⟨e, he, hk⟩
  exact (mem_mapDelete.mp he).2 hk

theorem keysOf_mapDelete_nodup {m : List (String × Nat)} (k : String)
    (h : (keysOf m).Nodup) : (keysOf (mapDelete m k)).Nodup :=
  List.Nodup.sublist (List.Sublist.map Prod.fst (List.filter_sublist m)) h

theorem keysOf_mapInsert_nodup {m : List (String × Nat)} (k : String)
    (v : Nat) (h : (keysOf m).Nodup) :
    (keysOf (mapInsert m k v)).Nodup := by
  have : keysOf (mapInsert m k v) = k :: keysOf (mapDelete m k) := rfl
  rw [this]
  exact List.nodup_cons.mpr
    ⟨not_mem_keysOf_mapDelete m k, keysOf_mapDelete_nodup k h⟩

theorem mapLookup_isSome_iff {m : List (String × Nat)} {k : String} :
    (mapLookup m k).isSome = true ↔ ∃ e ∈ m, e.1 = k := by
  unfold mapLookup
  cases h : m.find? (fun e => e.1 = k) with
  | none =>
      simp only [Option.isSome_none, Bool.false_eq_true, false_iff]
      rw [List.find?_eq_none] at h
      intro ⟨e, he, hk⟩
      exact absurd (decide_eq_true hk) (h e he)
  | some e =>
      simp only [Option.isSome_some, true_iff]
      have hp := List.find?_some h
      exact ⟨e, List.mem_of_find?_eq_some h, of_decide_eq_true hp⟩

theorem mapLookup_eq_none_iff {m : List (String × Nat)} {k : String} :
    mapLookup m k = none ↔ ∀ e ∈ m, e.1 ≠ k := by
  constructor
  · intro h e he hk
    have : (mapLookup m k).isSome = true := mapLookup_isSome_iff.mpr ⟨e, he, hk⟩
    rw [h] at this
    exact Bool.false_ne_true this
  · intro h
    unfold mapLookup
    cases hf : m.find? (fun e => e.1 = k) with
    | none => rfl
    | some e =>
        have hp := List.find?_some hf
        exact absurd (of_decide_eq_true hp)
          (h e (List.mem_of_find?_eq_some hf))

/-! ### Projection lemmas for the operations -/

theorem Broadcast_clients (s : ServerState) (msg : String)
    (except : Option Nat) : (Broadcast s msg except).clients = s.clients := rfl

theorem Broadcast_names (s : ServerState) (msg : String)
    (except : Option Nat) : (Broadcast s msg except).names = s.names := rfl

theorem Broadcast_count (s : ServerState) (msg : String)
    (except : Option Nat) : (Broadcast s msg except).count = s.count := rfl

theorem Broadcast_nextCid (s : ServerState) (msg : String)
    (except : Option Nat) : (Broadcast s msg except).nextCid = s.nextCid := rfl

theorem Broadcast_banned (s : ServerState) (msg : String)
    (except : Option Nat) : (Broadcast s msg except).banned = s.banned := rfl

theorem Broadcast_history (s : ServerState) (msg : String)
    (except : Option Nat) :
    (Broadcast s msg except).history = histAdd s.history msg := rfl

theorem Broadcast_outbox (s : ServerState) (msg : String)
    (except : Option Nat) :
    (Broadcast s msg except).outbox = deliverAll s.outbox s.clients msg except :=
  rfl

theorem Add_clients (s : ServerState) (cid : Nat) :
    (Add s cid).clients = mapInsert s.clients (addName s cid) cid := by
  cases hp : (proposeName { s with count := s.count + 1 } (s.names cid)).2 <;>
    simp [Add, Broadcast, clientRename, addName, hp]

theorem Add_names (s : ServerState) (cid : Nat) :
    (Add s cid).names =
      fun j => if j = cid then addName s cid else s.names j := by
  cases hp : (proposeName { s with count := s.count + 1 } (s.names cid)).2 <;>
    simp [Add, Broadcast, clientRename, addName, hp]

theorem Add_count (s : ServerState) (cid : Nat) :
    (Add s cid).count = s.count + 1 := by
  cases hp : (proposeName { s with count := s.count + 1 } (s.names cid)).2 <;>
    simp [Add, Broadcast, clientRename, hp]

theorem Add_nextCid (s : ServerState) (cid : Nat) :
    (Add s cid).nextCid = s.nextCid := by
  cases hp : (proposeName { s with count := s.count + 1 } (s.names cid)).2 <;>
    simp [Add, Broadcast, clientRename, hp]

theorem Remove_clients (s : ServerState) (cid : Nat) :
    (Remove s cid).clients = mapDelete s.clients (s.names cid) := rfl

theorem Remove_names (s : ServerState) (cid : Nat) :
    (Remove s cid).names = s.names := rfl

theorem Remove_nextCid (s : ServerState) (cid : Nat) :
    (Remove s cid).nextCid = s.nextCid := rfl

theorem Rename_eq_of_err (s : ServerState) (cid : Nat) (newName : String)
    (e : String) (h : (proposeName s newName).2 = some e) :
    Rename s cid newName =
      { s with outbox := sendMsg s.outbox cid ("-> " ++ e) } := by
  simp [Rename, h]

theorem Rename_eq_of_ok (s : ServerState) (cid : Nat) (newName : String)
    (h : (proposeName s newName).2 = none) :
    Rename s cid newName =
      Broadcast
        { s with
          clients := mapInsert (mapDelete s.clients (s.names cid))
            (proposeName s newName).1 cid
          names := fun j =>
            if j = cid then (proposeName s newName).1 else s.names j }
        (renameMsg (s.names cid) (proposeName s newName).1) none := by
  simp [Rename, h, clientRename]

theorem Rename_nextCid (s : ServerState) (cid : Nat) (newName : String) :
    (Rename s cid newName).nextCid = s.nextCid := by
  cases hp : (proposeName s newName).2 with
  | none => rw [Rename_eq_of_ok s cid newName hp]; rfl
  | some e => rw [Rename_eq_of_err s cid newName e hp]

theorem applyOp_nextCid (s : ServerState) (op : Op) :
    (applyOp s op).nextCid = opAlloc s.nextCid op := by
  cases op with
  | add prov => simp [applyOp, opAlloc, Add_nextCid]
  | remove cid => simp [applyOp, opAlloc, Remove_nextCid]
  | rename cid n => simp [applyOp, opAlloc, Rename_nextCid]

/-! ### The registry invariant -/

theorem Inv_initState : Inv initState where
  keysNodup := List.nodup_nil
  consistent := by intro e he; cases he
  bounded := by intro e he; cases he

theorem Inv_Broadcast {s : ServerState} (h : Inv s) (msg : String)
    (except : Option Nat) : Inv (Broadcast s msg except) where
  keysNodup := by rw [Broadcast_clients]; exact h.keysNodup
  consistent := by rw [Broadcast_clients, Broadcast_names]; exact h.consistent
  bounded := by rw [Broadcast_clients, Broadcast_nextCid]; exact h.bounded

theorem Inv_Remove {s : ServerState} (h : Inv s) (cid : Nat) :
    Inv (Remove s cid) where
  keysNodup := by
    rw [Remove_clients]
    exact keysOf_mapDelete_nodup _ h.keysNodup
  consistent := by
    rw [Remove_clients, Remove_names]
    intro e he
    exact h.consistent e (mem_mapDelete.mp he).1
  bounded := by
    rw [Remove_clients, Remove_nextCid]
    intro e he
    exact h.bounded e (mem_mapDelete.mp he).1

theorem Inv_Add {s : ServerState} (h : Inv s) {cid : Nat}
    (hfresh : ∀ e ∈ s.clients, e.2 ≠ cid) (hcid : cid < s.nextCid) :
    Inv (Add s cid) where
  keysNodup := by
    rw [Add_clients]
    exact keysOf_mapInsert_nodup _ _ h.keysNodup
  consistent := by
    rw [Add_clients, Add_names]
    intro e he
    rcases mem_mapInsert.mp he with rfl | ⟨hm, _⟩
    · simp
    · have hne : e.2 ≠ cid := hfresh e hm
      simp only [hne, if_false]
      exact h.consistent e hm
  bounded := by
    rw [Add_clients, Add_nextCid]
    intro e he
    rcases mem_mapInsert.mp he with rfl | ⟨hm, _⟩
    · exact hcid
    · exact h.bounded e hm

theorem Inv_Rename {s : ServerState} (h : Inv s) {cid : Nat}
    (hcid : cid < s.nextCid) (newName : String) :
    Inv (Rename s cid newName) := by
  cases hp : (proposeName s newName).2 with
  | some e =>
      rw [Rename_eq_of_err s cid newName e hp]
      exact ⟨h.keysNodup, h.consistent, h.bounded⟩
  | none =>
      rw [Rename_eq_of_ok s cid newName hp]
      refine Inv_Broadcast ?_ _ _
      refine ⟨?_, ?_, ?_⟩
      · exact keysOf_mapInsert_nodup _ _ (keysOf_mapDelete_nodup _ h.keysNodup)
      · intro e he
        rcases mem_mapInsert.mp he with rfl | ⟨hm, _⟩
        · simp
        · rcases mem_mapDelete.mp hm with ⟨hmem, hkey⟩
          have hne : e.2 ≠ cid := by
            intro hecid
            exact hkey (by rw [← h.consistent e hmem, hecid])
          simp only [hne, if_false]
          exact h.consistent e hmem
      · intro e he
        rcases mem_mapInsert.mp he with rfl | ⟨hm, _⟩
        · exact hcid
        · exact h.bounded e (mem_mapDelete.mp hm).1

theorem Inv_applyOp {s : ServerState} (h : Inv s) {op : Op}
    (hok : opOk s.nextCid op = true) : Inv (applyOp s op) := by
  cases op with
  | add prov =>
      simp only [applyOp]
      have h1 : Inv { s with
          nextCid := s.nextCid + 1
          names := fun j => if j = s.nextCid then prov else s.names j } := by
        refine ⟨h.keysNodup, ?_, ?_⟩
        · intro e he
          have hne : e.2 ≠ s.nextCid := Nat.ne_of_lt (h.bounded e he)
          simp only [hne, if_false]
          exact h.consistent e he
        · intro e he
          exact Nat.lt_succ_of_lt (h.bounded e he)
      have hfresh : ∀ e ∈ ({ s with
          nextCid := s.nextCid + 1
          names := fun j => if j = s.nextCid then prov else s.names j } :
            ServerState).clients, e.2 ≠ s.nextCid := by
        intro e he
        exact Nat.ne_of_lt (h.bounded e he)
      exact Inv_Add h1 hfresh (Nat.lt_succ_self _)
  | remove cid =>
      simp only [applyOp]
      exact Inv_Remove h cid
  | rename cid n =>
      simp only [applyOp]
      exact Inv_Rename h (of_decide_eq_true hok) n

theorem Inv_runOps {ops : List Op} : ∀ {s : ServerState}, Inv s →
    wfOps s.nextCid ops = true → Inv (runOps s ops) := by
  induction ops with
  | nil => intro s h _; exact h
  | cons op rest ih =>
      intro s h hwf
      simp only [wfOps, Bool.and_eq_true] at hwf
      rcases hwf with ⟨hok, hrest⟩
      have hstep : Inv (applyOp s op) := Inv_applyOp h hok
      have : wfOps (applyOp s op).nextCid rest = true := by
        rw [applyOp_nextCid]; exact hrest
      exact ih hstep this

/-! ### Lemmas about message delivery -/

theorem sendMsg_self (ob : Nat → List String) (cid : Nat) (msg : String) :
    sendMsg ob cid msg cid = ob cid ++ [msg] := by
  simp [sendMsg]

theorem sendMsg_other (ob : Nat → List String) (cid : Nat) (msg : String)
    {j : Nat} (h : j ≠ cid) : sendMsg ob cid msg j = ob j := by
  simp [sendMsg, h]

theorem deliverAll_of_not_mem (ob : Nat → List String)
    (entries : List (String × Nat)) (msg : String) (except : Option Nat)
    {j : Nat} (h : ∀ e ∈ entries, e.2 ≠ j) :
    deliverAll ob entries msg except j = ob j := by
  induction entries generalizing ob with
  | nil => rfl
  | cons e rest ih =>
      have hej : e.2 ≠ j := h e (List.mem_cons_self e rest)
      have hrest : ∀ x ∈ rest, x.2 ≠ j := fun x hx => h x (List.mem_cons_of_mem e hx)
      simp only [deliverAll]
      by_cases hx : except = some e.2
      · rw [if_pos hx]
        exact ih ob hrest
      · simp only [if_neg hx]
        rw [ih (sendMsg ob e.2 msg) hrest]
        exact sendMsg_other ob e.2 msg (fun hh => hej hh.symm)

theorem deliverAll_excluded (ob : Nat → List String)
    (entries : List (String × Nat)) (msg : String) (j : Nat) :
    deliverAll ob entries msg (some j) j = ob j := by
  induction entries generalizing ob with
  | nil => rfl
  | cons e rest ih =>
      simp only [deliverAll]
      by_cases hx : (some j : Option Nat) = some e.2
      · rw [if_pos hx]
        exact ih ob
      · rw [if_neg hx]
        rw [ih (sendMsg ob e.2 msg)]
        have hej : j ≠ e.2 := fun hh => hx (by rw [hh])
        exact sendMsg_other ob e.2 msg hej

theorem mem_deliverAll_of_mem (ob : Nat → List String)
    (entries : List (String × Nat)) (msg : String) (except : Option Nat)
    {j : Nat} {x : String} (h : x ∈ ob j) :
    x ∈ deliverAll ob entries msg except j := by
  induction entries generalizing ob with
  | nil => exact h
  | cons e rest ih =>
      simp only [deliverAll]
      by_cases hx : except = some e.2
      · rw [if_pos hx]
        exact ih ob h
      · rw [if_neg hx]
        refine ih (sendMsg ob e.2 msg) ?_
        by_cases hj : j = e.2
        · subst hj
          rw [sendMsg_self]
          exact List.mem_append_left _ h
        · rw [sendMsg_other ob e.2 msg hj]
          exact h

theorem mem_deliverAll_self (ob : Nat → List String)
    (entries : List (String × Nat)) (msg : String) (except : Option Nat)
    {e : String × Nat} (he : e ∈ entries) (hx : except ≠ some e.2) :
    msg ∈ deliverAll ob entries msg except e.2 := by
  induction entries generalizing ob with
  | nil => cases he
  | cons f rest ih =>
      simp only [deliverAll]
      rcases List.mem_cons.mp he with rfl | hmem
      · simp only [if_neg hx]
        refine mem_deliverAll_of_mem _ rest msg except ?_
        rw [sendMsg_self]
        exact List.mem_append_right _ (List.mem_singleton.mpr rfl)
      · by_cases hf : except = some f.2
        · rw [if_pos hf]
          exact ih ob hmem
        · rw [if_neg hf]
          exact ih (sendMsg ob f.2 msg) hmem

theorem deliverAll_mem_nodup (ob : Nat → List String)
    (entries : List (String × Nat)) (msg : String) (except : Option Nat)
    (hnd : (entries.map Prod.snd).Nodup) {e : String × Nat}
    (he : e ∈ entries) (hx : except ≠ some e.2) :
    deliverAll ob entries msg except e.2 = ob e.2 ++ [msg] := by
  induction entries generalizing ob with
  | nil => cases he
  | cons f rest ih =>
      simp only [List.map_cons, List.nodup_cons] at hnd
      rcases List.mem_cons.mp he with rfl | hmem
      · simp only [deliverAll, if_neg hx]
        have hr : ∀ x ∈ rest, x.2 ≠ e.2 := by
          intro x hxr hxx
          exact hnd.1 (hxx ▸ List.mem_map.mpr ⟨x, hxr, rfl⟩)
        rw [deliverAll_of_not_mem _ rest msg except hr]
        exact sendMsg_self ob e.2 msg
      · have hfe : f.2 ≠ e.2 := by
          intro hh
          exact hnd.1 (hh ▸ List.mem_map.mpr ⟨e, hmem, rfl⟩)
        simp only [deliverAll]
        by_cases hf : except = some f.2
        · rw [if_pos hf]
          exact ih ob hnd.2 hmem
        · rw [if_neg hf]
          rw [ih (sendMsg ob f.2 msg) hnd.2 hmem]
          rw [sendMsg_other ob f.2 msg (fun hh => hfe hh.symm)]

/-! ### Lemmas about the history buffer -/

theorem histAdd_eq_histGet (h : List String) (msg : String) :
    histAdd h msg = histGet (h ++ [msg]) HISTORY_LEN := rfl

theorem histGet_length_le (h : List String) (n : Nat) :
    (histGet h n).length ≤ n := by
  simp only [histGet, List.length_drop]
  omega

theorem histGet_append_histGet (a b : List String) (n : Nat) :
    histGet (histGet a n ++ b) n = histGet (a ++ b) n := by
  simp only [histGet, List.length_append, List.length_drop]
  rw [List.drop_append_eq_append_drop, List.drop_append_eq_append_drop,
    List.drop_drop]
  simp only [List.length_drop]
  congr 1
  · congr 1
    omega
  · congr 1
    omega

theorem foldl_histAdd (msgs : List String) :
    ∀ h : List String, h.length ≤ HISTORY_LEN →
      List.foldl histAdd h msgs = histGet (h ++ msgs) HISTORY_LEN := by
  induction msgs with
  | nil =>
      intro h hlen
      simp only [List.foldl_nil, List.append_nil, histGet]
      rw [Nat.sub_eq_zero_of_le hlen, List.drop_zero]
  | cons m rest ih =>
      intro h _
      simp only [List.foldl_cons]
      have hlen2 : (histAdd h m).length ≤ HISTORY_LEN := by
        rw [histAdd_eq_histGet]
        exact histGet_length_le _ _
      rw [ih (histAdd h m) hlen2, histAdd_eq_histGet, histGet_append_histGet]
      simp

/-! ### Further helper lemmas -/

theorem mapCongrMem {α β : Type} (l : List α) (f g : α → β)
    (h : ∀ a ∈ l, f a = g a) : l.map f = l.map g := by
  induction l with
  | nil => rfl
  | cons a rest ih =>
      simp only [List.map_cons]
      rw [h a (List.mem_cons_self a rest),
        ih (fun x hx => h x (List.mem_cons_of_mem a hx))]

theorem proposeName_collision {s : ServerState} {name : String}
    (h : (mapLookup s.clients (sanitizeName s.count name)).isSome = true) :
    proposeName s name
      = (guestName s.count,
         some (sanitizeName s.count name ++ " is not available.")) := by
  simp [proposeName, h]

theorem proposeName_no_collision {s : ServerState} {name : String}
    (h : mapLookup s.clients (sanitizeName s.count name) = none) :
    proposeName s name = (sanitizeName s.count name, none) := by
  simp [proposeName, h]

theorem Add_names_cid (s : ServerState) (cid : Nat) :
    (Add s cid).names cid = addName s cid := by
  rw [Add_names]
  simp

theorem Add_outbox_collision {s : ServerState} {cid : Nat}
    (h : (mapLookup s.clients
        (sanitizeName (s.count + 1) (s.names cid))).isSome = true) :
    (Add s cid).outbox cid
      = s.outbox cid ++ [addNotice (s.names cid) (guestName (s.count + 1))] := by
  have hp : proposeName { s with count := s.count + 1 } (s.names cid)
      = (guestName (s.count + 1),
         some (sanitizeName (s.count + 1) (s.names cid)
           ++ " is not available.")) :=
    proposeName_collision h
  simp only [Add, Broadcast, clientRename, hp]
  rw [deliverAll_excluded, sendMsg_self]

theorem Add_outbox_self (s : ServerState) (cid : Nat) :
    (Add s cid).outbox cid = s.outbox cid ∨
    (Add s cid).outbox cid
      = s.outbox cid ++ [addNotice (s.names cid) (addName s cid)] := by
  cases hp : (proposeName { s with count := s.count + 1 } (s.names cid)).2 with
  | none =>
      left
      simp only [Add, Broadcast, clientRename, hp]
      rw [deliverAll_excluded]
  | some e =>
      right
      simp only [Add, Broadcast, clientRename, addName, hp]
      rw [deliverAll_excluded, sendMsg_self]

theorem Add_outbox_member (s : ServerState) (cid : Nat)
    {e : String × Nat} (he : e ∈ (Add s cid).clients) (hne : e.2 ≠ cid) :
    joinMsg (addName s cid) (Add s cid).clients.length
      ∈ (Add s cid).outbox e.2 := by
  rw [Add_clients] at he
  rw [Add_clients]
  have hx : (some cid : Option Nat) ≠ some e.2 := by
    intro hh
    exact hne (Option.some.inj hh).symm
  cases hp : (proposeName { s with count := s.count + 1 } (s.names cid)).2 with
  | none =>
      simp only [Add, Broadcast, clientRename, addName, hp]
      exact mem_deliverAll_self _ _ _ _ he hx
  | some err =>
      simp only [Add, Broadcast, clientRename, addName, hp]
      exact mem_deliverAll_self _ _ _ _ he hx

theorem banLookup_banInsert (m : BanTable) (fp : String) (v : Option Int) :
    banLookup (banInsert m fp v) fp = some v := by
  unfold banLookup banInsert
  rw [List.find?_cons_of_pos]
  exact decide_eq_true rfl

theorem banLookup_banDelete (m : BanTable) (fp : String) :
    banLookup (banDelete m fp) fp = none := by
  unfold banLookup banDelete
  have hf : (m.filter (fun e => ¬ (e.1 = fp))).find?
      (fun e => e.1 = fp) = none := by
    rw [List.find?_eq_none]
    intro x hx
    have hmem := (List.mem_filter.mp hx).2
    simp only [decide_not, Bool.not_eq_true'] at hmem
    simp [hmem]
  rw [hf]

theorem runBroadcasts_history (msgs : List String) :
    ∀ s : ServerState,
      (runBroadcasts s msgs).history = List.foldl histAdd s.history msgs := by
  induction msgs with
  | nil => intro s; rfl
  | cons m rest ih =>
      intro s
      show (runBroadcasts (Broadcast s m none) rest).history = _
      rw [ih (Broadcast s m none), Broadcast_history]
      rfl

/-! ### The claims -/

/-- Claim C1: for every well-formed finite sequence of Add, Remove and
Rename operations executed sequentially, at every quiescent point the
display names of the participants stored in the session registry contain
no duplicates. -/
theorem registry_display_names_nodup (ops : List Op)
    (h : wfOps 0 ops = true) :
    ((runOps initState ops).clients.map
      (fun e => (runOps initState ops).names e.2)).Nodup := by
  have hinv : Inv (runOps initState ops) := Inv_runOps Inv_initState h
  have hmap : (runOps initState ops).clients.map
      (fun e => (runOps initState ops).names e.2)
      = keysOf (runOps initState ops).clients :=
    mapCongrMem _ _ _ (fun e he => hinv.consistent e he)
  rw [hmap]
  exact hinv.keysNodup

theorem registry_display_names_nodup_witness :
    wfOps 0 [Op.add "alice", Op.add "alice", Op.rename 0 "bob"] = true ∧
    ((runOps initState [Op.add "alice", Op.add "alice", Op.rename 0 "bob"]).clients.map
      (fun e =>
        (runOps initState [Op.add "alice", Op.add "alice", Op.rename 0 "bob"]).names e.2)).Nodup :=
  ⟨by decide, registry_display_names_nodup _ (by decide)⟩

/-- Claim C2: the sanitisation stage of `proposeName` strips every
character outside `[0-9A-Za-z_]`, then truncates to at most 32 characters
if longer, and substitutes `Guest<count>` (current connection count) if
the result is empty; `"ali ce!!"` yields `"alice"`, `"!!!"` yields
`Guest<N>` for the current counter `N`, and a 40-character valid name is
truncated to exactly 32 characters. -/
theorem proposeName_sanitisation (count : Nat) (name : String) :
    sanitizeName count name = specNamePipeline count name ∧
    proposeName { initState with count := count } "ali ce!!" = ("alice", none) ∧
    proposeName { initState with count := count } "!!!" = (guestName count, none) ∧
    (sanitizeName count ⟨List.replicate 40 'a'⟩).data.length = MAX_NAME_LENGTH := by
  refine ⟨?_, rfl, rfl, rfl⟩
  unfold sanitizeName specNamePipeline
  by_cases h1 : (stripName name).data.length > MAX_NAME_LENGTH
  · simp only [if_pos h1]
    have h2 : ¬ ((⟨(stripName name).data.take MAX_NAME_LENGTH⟩ :
        String).data.length = 0) := by
      show ¬ (((stripName name).data.take MAX_NAME_LENGTH).length = 0)
      rw [List.length_take]
      unfold MAX_NAME_LENGTH at h1 ⊢
      omega
    rw [if_neg h2]
  · simp only [if_neg h1]

/-- Claim C10: after every well-formed sequence of Add, Remove and Rename
operations, every key `n` of the registry map satisfies
`clients[n].Name == n`; consequently `Remove`, which deletes the entry
keyed by the participant current name, removes every entry holding that
participant. -/
theorem registry_key_consistency (ops : List Op)
    (h : wfOps 0 ops = true) :
    (∀ e ∈ (runOps initState ops).clients,
        (runOps initState ops).names e.2 = e.1) ∧
    (∀ cid : Nat, ∀ e ∈ (Remove (runOps initState ops) cid).clients,
        e.2 ≠ cid) := by
  have hinv : Inv (runOps initState ops) := Inv_runOps Inv_initState h
  refine ⟨hinv.consistent, ?_⟩
  intro cid e he hecid
  rw [Remove_clients] at he
  rcases mem_mapDelete.mp he with ⟨hm, hk⟩
  exact hk (by rw [← hinv.consistent e hm, hecid])

theorem registry_key_consistency_witness :
    wfOps 0 [Op.add "alice", Op.add "bob"] = true ∧
    (runOps initState [Op.add "alice", Op.add "bob"]).names 0 = "alice" :=
  ⟨by decide,
    (registry_key_consistency [Op.add "alice", Op.add "bob"] (by decide)).1
      ("alice", 0) (by decide)⟩

/-- Claim C3 counterexample: the claim that a colliding Add always assigns
a name not in use by any other registered participant is false. Starting
from the empty server, after `add "alice"`, `add "x"`,
`rename 1 "Guest3"`, a fourth client requesting `"alice"` collides
(`"alice"` is held by client 0), and the fallback name `Guest3` assigned
to the new client 2 was already in use by registered client 1, whose
registry entry is silently overwritten. -/
theorem Add_unused_name_cex :
    wfOps 0 [Op.add "alice", Op.add "x", Op.rename 1 "Guest3", Op.add "alice"]
      = true ∧
    (mapLookup
      (runOps initState [Op.add "alice", Op.add "x", Op.rename 1 "Guest3"]).clients
      (sanitizeName
        ((runOps initState [Op.add "alice", Op.add "x", Op.rename 1 "Guest3"]).count + 1)
        "alice")).isSome = true ∧
    (runOps initState
      [Op.add "alice", Op.add "x", Op.rename 1 "Guest3", Op.add "alice"]).names 2
      = "Guest3" ∧
    mapLookup
      (runOps initState [Op.add "alice", Op.add "x", Op.rename 1 "Guest3"]).clients
      "Guest3" = some 1 ∧
    mapLookup
      (runOps initState
        [Op.add "alice", Op.add "x", Op.rename 1 "Guest3", Op.add "alice"]).clients
      "Guest3" = some 2 := by
  decide

/-- Claim C3 (amended): when the sanitised requested name of a client
added via Add is already held by a registered participant, and the
fallback name `Guest<counter>` is not itself registered, Add assigns the
fallback — a name different from the requested one and in use by no
previously registered participant — and delivers a NameUnavailable notice
to the requester message channel. (The fallback is not re-checked for
collisions: without the second hypothesis the assigned name can evict a
registered participant, per `Add_unused_name_cex`.) -/
theorem Add_collision_resolution (s : ServerState) (cid : Nat)
    (hcol : (mapLookup s.clients
        (sanitizeName (s.count + 1) (s.names cid))).isSome = true)
    (hguest : mapLookup s.clients (guestName (s.count + 1)) = none) :
    (Add s cid).names cid = guestName (s.count + 1) ∧
    mapLookup s.clients ((Add s cid).names cid) = none ∧
    (Add s cid).names cid ≠ sanitizeName (s.count + 1) (s.names cid) ∧
    (Add s cid).outbox cid
      = s.outbox cid
        ++ [addNotice (s.names cid) (guestName (s.count + 1))] := by
  have hp : proposeName { s with count := s.count + 1 } (s.names cid)
      = (guestName (s.count + 1),
         some (sanitizeName (s.count + 1) (s.names cid)
           ++ " is not available.")) :=
    proposeName_collision hcol
  have hname : (Add s cid).names cid = guestName (s.count + 1) := by
    rw [Add_names_cid]
    unfold addName
    rw [hp]
  refine ⟨hname, ?_, ?_, Add_outbox_collision hcol⟩
  · rw [hname]
    exact hguest
  · rw [hname]
    intro hEq
    rw [← hEq] at hcol
    rw [hguest] at hcol
    exact Bool.false_ne_true hcol

theorem Add_collision_resolution_witness :
    (mapLookup [("alice", 0)] (sanitizeName 1 "alice")).isSome = true ∧
    mapLookup [("alice", 0)] (guestName 1) = none ∧
    (Add ⟨[("alice", 0)], fun _ => "alice", fun _ => [], 0, [], [], 2⟩ 1).names 1
      = guestName 1 :=
  ⟨by decide, by decide,
    (Add_collision_resolution
      ⟨[("alice", 0)], fun _ => "alice", fun _ => [], 0, [], [], 2⟩ 1
      (by decide) (by decide)).1⟩

/-- Claim C4: Broadcast appends the message to the history buffer and
enqueues it on the outbound channel of every registered participant
except the excluded one; the exclusion is by participant identity, so a
participant is skipped exactly when it is the excluded reference itself,
whatever name it is stored under; with no exclusion every registered
participant receives the message. -/
theorem Broadcast_delivery (s : ServerState) (msg : String)
    (except : Option Nat) (hnd : (s.clients.map Prod.snd).Nodup) :
    (Broadcast s msg except).history = histAdd s.history msg ∧
    (∀ e ∈ s.clients, except ≠ some e.2 →
        (Broadcast s msg except).outbox e.2 = s.outbox e.2 ++ [msg]) ∧
    (∀ cid : Nat, except = some cid →
        (Broadcast s msg except).outbox cid = s.outbox cid) ∧
    (except = none → ∀ e ∈ s.clients,
        (Broadcast s msg except).outbox e.2 = s.outbox e.2 ++ [msg]) := by
  refine ⟨Broadcast_history s msg except, ?_, ?_, ?_⟩
  · intro e he hx
    rw [Broadcast_outbox]
    exact deliverAll_mem_nodup s.outbox s.clients msg except hnd he hx
  · intro cid hx
    rw [Broadcast_outbox, hx]
    exact deliverAll_excluded _ _ _ _
  · intro hnone e he
    rw [Broadcast_outbox]
    refine deliverAll_mem_nodup s.outbox s.clients msg except hnd he ?_
    rw [hnone]
    simp

theorem Broadcast_delivery_witness :
    (([("a", 0), ("b", 1)].map Prod.snd).Nodup) ∧
    (Broadcast ⟨[("a", 0), ("b", 1)], fun _ => "", fun _ => [], 2, [], [], 2⟩
      "hi" (some 1)).outbox 0 = [] ++ ["hi"] :=
  ⟨by decide,
    (Broadcast_delivery
      ⟨[("a", 0), ("b", 1)], fun _ => "", fun _ => [], 2, [], [], 2⟩
      "hi" (some 1) (by decide)).2.1 ("a", 0) (by decide) (by decide)⟩

/-- Claim C5: IsBanned returns false on an absent entry; true on an entry
with no expiry; false on an entry whose expiry lies in the past, removing
that entry from the table; and true on an entry whose expiry lies in the
future. -/
theorem IsBanned_cases (m : BanTable) (fp : String) (now : Int) :
    (banLookup m fp = none → IsBanned m fp now = (false, m)) ∧
    (banLookup m fp = some none → IsBanned m fp now = (true, m)) ∧
    (∀ t : Int, banLookup m fp = some (some t) → t < now →
        IsBanned m fp now = (false, banDelete m fp)) ∧
    (∀ t : Int, banLookup m fp = some (some t) → now < t →
        IsBanned m fp now = (true, m)) := by
  refine ⟨?_, ?_, ?_, ?_⟩
  · intro h
    simp [IsBanned, h]
  · intro h
    simp [IsBanned, h]
  · intro t h1 h2
    simp only [IsBanned, h1]
    rw [if_pos h2]
  · intro t h1 h2
    simp only [IsBanned, h1]
    rw [if_neg (by omega)]

theorem IsBanned_cases_witness :
    banLookup [("f", some (5 : Int))] "f" = some (some 5) ∧
    (5 : Int) < 10 ∧
    IsBanned [("f", some (5 : Int))] "f" 10
      = (false, banDelete [("f", some (5 : Int))] "f") :=
  ⟨by decide, by decide,
    (IsBanned_cases [("f", some (5 : Int))] "f" 10).2.2.1 5 (by decide)
      (by decide)⟩

/-- Claim C6 counterexample: the claim that the join announcement is
broadcast "excluding no one" is false — `Server.Add` passes the new
client as the `except` argument of Broadcast. After `add "alice"` then
`add "bob"`, client 0 has the announcement `* bob joined. (Total
connected: 2)` on its channel while the newly added client 1 received
nothing at all. -/
theorem Add_join_excluded_cex :
    joinMsg "bob" 2 ∈ (runOps initState [Op.add "alice", Op.add "bob"]).outbox 0 ∧
    (runOps initState [Op.add "alice", Op.add "bob"]).outbox 1 = [] := by
  decide

/-- Claim C6 (amended): after storing the participant, Add broadcasts a
join announcement containing the resolved name and the new total
participant count, excluding the newly added participant: every other
registered participant has the announcement enqueued on its outbound
channel, while the new participant own channel receives at most the
collision notice, never the announcement. -/
theorem Add_join_announcement (s : ServerState) (cid : Nat) :
    (∀ e ∈ (Add s cid).clients, e.2 ≠ cid →
        joinMsg (addName s cid) (Add s cid).clients.length
          ∈ (Add s cid).outbox e.2) ∧
    ((Add s cid).outbox cid = s.outbox cid ∨
      (Add s cid).outbox cid
        = s.outbox cid ++ [addNotice (s.names cid) (addName s cid)]) :=
  ⟨fun _ he hne => Add_outbox_member s cid he hne, Add_outbox_self s cid⟩

theorem Add_join_announcement_witness :
    joinMsg "bob" 2
      ∈ (Add ⟨[("alice", 0)], fun _ => "bob", fun _ => [], 1, [], [], 2⟩ 1).outbox 0 :=
  (Add_join_announcement
    ⟨[("alice", 0)], fun _ => "bob", fun _ => [], 1, [], [], 2⟩ 1).1
    ("alice", 0) (by decide) (by decide)

/-- Claim C7: when the naming algorithm reports a collision for a
requested new name, Rename delivers a private notice to the requesting
participant only and changes nothing else: the registry map, every
client stored name, the counter, the history and the ban table are
untouched, and no announcement reaches any other participant. -/
theorem Rename_collision_no_change (s : ServerState) (cid : Nat)
    (newName : String) (e : String)
    (h : (proposeName s newName).2 = some e) :
    (Rename s cid newName).clients = s.clients ∧
    (Rename s cid newName).names = s.names ∧
    (Rename s cid newName).count = s.count ∧
    (Rename s cid newName).history = s.history ∧
    (Rename s cid newName).banned = s.banned ∧
    (Rename s cid newName).outbox cid = s.outbox cid ++ ["-> " ++ e] ∧
    (∀ j : Nat, j ≠ cid → (Rename s cid newName).outbox j = s.outbox j) := by
  rw [Rename_eq_of_err s cid newName e h]
  refine ⟨rfl, rfl, rfl, rfl, rfl, sendMsg_self _ _ _, ?_⟩
  intro j hj
  exact sendMsg_other _ _ _ hj

theorem Rename_collision_no_change_witness :
    (proposeName ⟨[("bob", 0)], fun _ => "bob", fun _ => [], 0, [], [], 1⟩
      "bob").2 = some "bob is not available." ∧
    (Rename ⟨[("bob", 0)], fun _ => "bob", fun _ => [], 0, [], [], 1⟩ 0
      "bob").clients = [("bob", 0)] :=
  ⟨by decide,
    (Rename_collision_no_change
      ⟨[("bob", 0)], fun _ => "bob", fun _ => [], 0, [], [], 1⟩ 0 "bob"
      "bob is not available." (by decide)).1⟩

/-- Claim C8: a permanent Ban (omitted duration) of a fingerprint followed
by IsBanned returns true at any later instant; Unban followed by IsBanned
returns false; and Unban of an absent fingerprint leaves the table
unchanged, with no error. -/
theorem ban_roundtrip (m : BanTable) (fp : String) (now now2 : Int) :
    (IsBanned (Ban m fp none now) fp now2).1 = true ∧
    (IsBanned (Unban m fp) fp now2).1 = false ∧
    (banLookup m fp = none → Unban m fp = m) := by
  refine ⟨?_, ?_, ?_⟩
  · have hb : Ban m fp none now = banInsert m fp none := rfl
    rw [hb]
    unfold IsBanned
    rw [banLookup_banInsert]
  · unfold IsBanned Unban
    rw [banLookup_banDelete]
  · intro h
    have hf : m.find? (fun e => e.1 = fp) = none := by
      unfold banLookup at h
      cases hfind : m.find? (fun e => e.1 = fp) with
      | none => rfl
      | some x => rw [hfind] at h; cases h
    unfold Unban banDelete
    refine List.filter_eq_self.mpr ?_
    intro a ha
    have h2 := List.find?_eq_none.mp hf a ha
    simpa using h2

theorem ban_roundtrip_witness :
    banLookup ([] : BanTable) "f" = none ∧
    Unban ([] : BanTable) "f" = ([] : BanTable) ∧
    (IsBanned (Ban ([] : BanTable) "f" none 0) "f" 99).1 = true :=
  ⟨by decide, (ban_roundtrip [] "f" 0 99).2.2 (by decide),
    (ban_roundtrip [] "f" 0 99).1⟩

/-- Claim C9: over any sequence of broadcasts from server start, the
history buffer is exactly the most recent `HISTORY_LEN` (20) messages in
send order — so it never exceeds 20 entries, oldest entries are discarded
first, and after 25 broadcasts it holds exactly the last 20; a joining
participant is replayed `history.Get(10)`, which is at most the 10 most
recent lines. -/
theorem history_bounded (msgs : List String) :
    (runBroadcasts initState msgs).history = histGet msgs HISTORY_LEN ∧
    (runBroadcasts initState msgs).history.length ≤ HISTORY_LEN ∧
    (msgs.length = 25 →
      (runBroadcasts initState msgs).history = msgs.drop 5) ∧
    (∀ h : List String, (histGet h 10).length ≤ 10) := by
  have h0 : (runBroadcasts initState msgs).history
      = histGet msgs HISTORY_LEN := by
    rw [runBroadcasts_history]
    rw [foldl_histAdd msgs initState.history (by simp [initState])]
    simp [initState]
  refine ⟨h0, ?_, ?_, fun h => histGet_length_le h 10⟩
  · rw [h0]
    exact histGet_length_le _ _
  · intro h25
    rw [h0]
    unfold histGet
    rw [h25]
    rfl

theorem history_bounded_witness :
    ((List.range 25).map (fun i => toString i)).length = 25 ∧
    (runBroadcasts initState ((List.range 25).map (fun i => toString i))).history
      = ((List.range 25).map (fun i => toString i)).drop 5 :=
  ⟨by simp, (history_bounded ((List.range 25).map (fun i => toString i))).2.2.1
    (by simp)⟩

end SshChat
